import Mathlib

/-!
Verification of the FER_iOS probability post-processing pipeline.

Shallow embedding of the two source files:
  - `ProbabilityAdjustment.h`: class `EmotionProbabilityAdjuster` (fields
    `boostFactor`, `neutralIndex`; method `adjust`).
  - `main.cpp`: `applyEma`, `medianFromHistory`, the history-buffer push in
    `captureVideoAndProcess` (`push_back` then `pop_front` when the size
    exceeds `maxHistory`), and the per-frame orchestration of the driver loop.

Modelling decisions:
  - `float` values are embedded as `ℚ` (exact arithmetic).
  - `neutralIndex` is declared `int` in the source but the data model
    constrains it to `0 ≤ index < N`; the source compares it through
    `static_cast<size_t>`, so a negative index would simply skip the boost.
    We embed it as `ℕ`.
  - The in-place index loop of `applyEma` (`for i < new_probs.size():
    ema_state[i] = ...`) becomes a structural recursion on the two lists;
    an out-of-bounds access to `ema_state` (which is undefined behavior in
    the C++) is made explicit as `none`.
  - `nth_element(col.begin(), col.begin() + k, col.end())` followed by
    reading `col[k]` yields the element that a full sort would place at
    position `k`; we embed it as indexing a sorted copy of the column
    (`List.insertionSort`, a correct sort, gives the same value at that
    index as any other correct sort).
-/

namespace FER

/-- `EmotionProbabilityAdjuster` from `ProbabilityAdjustment.h`: the
constructor stores the two configuration fields verbatim, with no
validation. -/
structure EmotionProbabilityAdjuster where
  boostFactor : ℚ
  neutralIndex : ℕ
  deriving DecidableEq

/-- `EmotionProbabilityAdjuster::adjust`: copy the input; if the size
exceeds `neutralIndex`, scale the entry there by `boostFactor`; accumulate
the sum from `0`; if the sum is positive divide every entry by it. -/
def EmotionProbabilityAdjuster.adjust (a : EmotionProbabilityAdjuster)
    (probabilities : List ℚ) : List ℚ :=
  let adjusted :=
    if a.neutralIndex < probabilities.length then
      probabilities.set a.neutralIndex
        (probabilities.getD a.neutralIndex 0 * a.boostFactor)
    else probabilities
  let sum := adjusted.foldl (· + ·) 0
  if 0 < sum then adjusted.map (fun p => p / sum) else adjusted

/-- Spec-mirror of `adjust`, written from §4.1 of the spec: produce a copy;
if `length > NeutralIndex`, multiply the element at `NeutralIndex` by
`BoostFactor`; if the sum of the possibly-boosted elements is positive,
divide every element by it; otherwise return the boosted copy unchanged. -/
def adjustSpec (a : EmotionProbabilityAdjuster) (l : List ℚ) : List ℚ :=
  let boosted :=
    if a.neutralIndex < l.length then
      l.set a.neutralIndex (a.boostFactor * l.getD a.neutralIndex 0)
    else l
  if 0 < boosted.sum then boosted.map (fun p => p / boosted.sum) else boosted

/-- One assignment of the EMA loop body:
`alpha * new_probs[i] + (1 - alpha) * ema_state[i]`. -/
def emaStep (alpha x s : ℚ) : ℚ := alpha * x + (1 - alpha) * s

/-- The loop of `applyEma`: for each index of `new_probs`, overwrite the
corresponding entry of `ema_state` with the blend.  Embedded structurally;
reading past the end of `ema_state` (undefined behavior in the source when
`new_probs` is longer) is `none`. -/
def emaGo (alpha : ℚ) : List ℚ → List ℚ → Option (List ℚ)
  | [], st => some st
  | _ :: _, [] => none
  | x :: xs, s :: ss =>
    match emaGo alpha xs ss with
    | none => none
    | some rest => some (emaStep alpha x s :: rest)

/-- `applyEma` from `main.cpp`: if `ema_state` is empty it is seeded with
`new_probs` and returned as-is; otherwise the blend loop runs and the
updated state is returned. -/
def applyEma (alpha : ℚ) (new_probs ema_state : List ℚ) : Option (List ℚ) :=
  match ema_state with
  | [] => some new_probs
  | _ :: _ => emaGo alpha new_probs ema_state

/-- `medianFromHistory` from `main.cpp`: empty history gives the empty
sentinel; otherwise, for each class index below the length of the front
(oldest) entry, collect the column of values present at that index, and if
the column is non-empty take the element a sort places at index
`size / 2`, else `0`. -/
def medianFromHistory (history : List (List ℚ)) : List ℚ :=
  match history with
  | [] => []
  | front :: _ =>
    (List.range front.length).map (fun c =>
      let col := history.filterMap (fun h => h[c]?)
      if col.isEmpty then 0
      else (List.insertionSort (· ≤ ·) col).getD (col.length / 2) 0)

/-- Spec-mirror of `medianFromHistory`, written from §4.4 of the spec:
`classCount` is the length of the first entry; for each class `c` collect
the value at `c` from every entry having at least `c+1` elements; a
non-empty column contributes the lower-middle element (index
`floor(size/2)`) of the sorted column, an empty column contributes `0.0`. -/
def medianSpec (history : List (List ℚ)) : List ℚ :=
  match history with
  | [] => []
  | front :: _ =>
    (List.range front.length).map (fun c =>
      let col := (history.filter (fun h => decide (c < h.length))).map
        (fun h => h.getD c 0)
      if col.length = 0 then 0
      else (List.insertionSort (· ≤ ·) col).getD (col.length / 2) 0)

/-- The history-buffer push of the driver loop (`main.cpp`):
`history.push_back(x); if (history.size() > maxHistory) history.pop_front();`. -/
def pushHistory (maxHistory : ℕ) (history : List (List ℚ)) (x : List ℚ) :
    List (List ℚ) :=
  if maxHistory < (history ++ [x]).length then (history ++ [x]).tail
  else history ++ [x]

/-- A sequence of pushes into an initially empty history buffer. -/
def pushAll (maxHistory : ℕ) (xs : List (List ℚ)) : List (List ℚ) :=
  xs.foldl (pushHistory maxHistory) []

/-- The mutable driver state of `captureVideoAndProcess`: the EMA state and
the history deque. -/
structure PipelineState where
  ema_state : List ℚ
  history : List (List ℚ)
  deriving DecidableEq

/-- The driver-loop configuration: `adjuster(2.0f)` (boost factor, default
neutral index 3), `ema_alpha = 0.1f`, `maxHistory = 60` in the source; kept
parametric so the spec's end-to-end scenario is also expressible. -/
structure DriverConfig where
  boostFactor : ℚ
  neutralIndex : ℕ
  ema_alpha : ℚ
  maxHistory : ℕ
  deriving DecidableEq

/-- One processed observation cycle of `captureVideoAndProcess`: adjust,
smooth, push into history, aggregate, and select the display distribution
(`median_probs.empty() ? ema_probs : median_probs`).  Returns the display
distribution and the updated state, or `none` if the EMA loop hit an
out-of-bounds access. -/
def processFrame (cfg : DriverConfig) (probabilities : List ℚ)
    (s : PipelineState) : Option (List ℚ × PipelineState) :=
  let adjuster : EmotionProbabilityAdjuster := ⟨cfg.boostFactor, cfg.neutralIndex⟩
  let adjustedProbabilities := adjuster.adjust probabilities
  match applyEma cfg.ema_alpha adjustedProbabilities s.ema_state with
  | none => none
  | some ema_probs =>
    let history := pushHistory cfg.maxHistory s.history ema_probs
    let median_probs := medianFromHistory history
    let display_probs := if median_probs.isEmpty then ema_probs else median_probs
    some (display_probs, ⟨ema_probs, history⟩)

/-- The guard of the driver loop: an empty probability vector skips the
pipeline (`continue`), leaving the state untouched and displaying nothing. -/
def loopBody (cfg : DriverConfig) (probabilities : List ℚ)
    (s : PipelineState) : Option (Option (List ℚ) × PipelineState) :=
  if probabilities.isEmpty then some (none, s)
  else
    match processFrame cfg probabilities s with
    | none => none
    | some (d, s2) => some (some d, s2)

/-- All entries of a history are non-empty. -/
def allNonEmpty (history : List (List ℚ)) : Bool :=
  history.all (fun e => !e.isEmpty)

/-! ### Helper lemmas -/

lemma foldl_add_eq_sum (l : List ℚ) (a : ℚ) : l.foldl (· + ·) a = a + l.sum := by
  induction l generalizing a with
  | nil => simp
  | cons x xs ih => simp [List.foldl_cons, ih, List.sum_cons]; ring

lemma adjust_eq_adjustSpec (a : EmotionProbabilityAdjuster) (l : List ℚ) :
    a.adjust l = adjustSpec a l := by
  unfold EmotionProbabilityAdjuster.adjust adjustSpec
  simp only [foldl_add_eq_sum, zero_add, mul_comm]

lemma pushHistory_window (cap : ℕ) (xs : List (List ℚ)) (x : List ℚ) :
    pushHistory cap (xs.drop (xs.length - cap)) x
      = (xs ++ [x]).drop (xs.length + 1 - cap) := by
  have hdl : (xs.drop (xs.length - cap)).length = xs.length - (xs.length - cap) :=
    List.length_drop _ _
  have hda : xs.drop (xs.length - cap) ++ [x] = (xs ++ [x]).drop (xs.length - cap) :=
    (List.drop_append_of_le_length (by omega)).symm
  unfold pushHistory
  rcases lt_or_le xs.length cap with h | h
  · have h0 : xs.length - cap = 0 := by omega
    have h1 : xs.length + 1 - cap = 0 := by omega
    rw [h0, List.drop_zero, h1, List.drop_zero,
      if_neg (by simp only [List.length_append, List.length_cons,
        List.length_nil]; omega)]
  · have hc : cap < (xs.drop (xs.length - cap) ++ [x]).length := by
      rw [List.length_append, hdl]
      simp only [List.length_cons, List.length_nil]
      omega
    rw [if_pos hc, hda, ← List.drop_one, List.drop_drop]
    congr 1
    omega

lemma pushAll_eq (cap : ℕ) (xs : List (List ℚ)) :
    pushAll cap xs = xs.drop (xs.length - cap) := by
  induction xs using List.reverseRecOn with
  | nil => simp [pushAll]
  | append_singleton ys y ih =>
    unfold pushAll at ih ⊢
    rw [List.foldl_append, List.foldl_cons, List.foldl_nil, ih, pushHistory_window]
    simp [List.length_append]

/-- Claim C1: `adjust` produces a copy of the input in which the entry at
`neutralIndex` is scaled by `boostFactor` exactly when the input length
exceeds `neutralIndex`; the copy is then divided through by its sum exactly
when that sum is positive, and is returned unchanged otherwise; `adjust` is
a total function, so no error is ever raised.  Stated as agreement with
`adjustSpec`, the word-for-word transcription of the spec's §4.1 policy. -/
theorem fer_c1_adjust_matches_spec (a : EmotionProbabilityAdjuster)
    (l : List ℚ) : a.adjust l = adjustSpec a l :=
  adjust_eq_adjustSpec a l

/-- Claim C2: starting from an empty buffer, after any sequence of pushes
the history length never exceeds the capacity, and the buffer holds exactly
the most recent `cap` pushed items in push order (the suffix of the pushed
sequence, i.e. strict FIFO with the oldest evicted first). -/
theorem fer_c2_history_fifo_bounded (cap : ℕ) (xs : List (List ℚ)) :
    (pushAll cap xs).length ≤ cap ∧
    pushAll cap xs = xs.drop (xs.length - cap) := by
  refine ⟨?_, pushAll_eq cap xs⟩
  rw [pushAll_eq, List.length_drop]
  omega

lemma emaGo_eq (alpha : ℚ) : ∀ (xs st : List ℚ), xs.length ≤ st.length →
    emaGo alpha xs st
      = some (List.zipWith (emaStep alpha) xs st ++ st.drop xs.length)
  | [], st, _ => by simp [emaGo]
  | x :: xs, [], h => by simp at h
  | x :: xs, s :: ss, h => by
    have ih := emaGo_eq alpha xs ss (by simpa using h)
    simp [emaGo, ih]

lemma emaGo_some_length (alpha : ℚ) : ∀ (xs st r : List ℚ),
    emaGo alpha xs st = some r → r.length = st.length
  | [], st, r, h => by simp [emaGo] at h; subst h; rfl
  | x :: xs, [], r, h => by simp [emaGo] at h
  | x :: xs, s :: ss, r, h => by
    revert h
    unfold emaGo
    cases hgo : emaGo alpha xs ss with
    | none => intro h; cases h
    | some rest =>
      intro h
      cases h
      simpa using emaGo_some_length alpha xs ss rest hgo

lemma column_eq (history : List (List ℚ)) (c : ℕ) :
    history.filterMap (fun h => h[c]?)
      = (history.filter (fun h => decide (c < h.length))).map
          (fun h => h.getD c 0) := by
  induction history with
  | nil => rfl
  | cons hd tl ih =>
    by_cases hc : c < hd.length
    · simp [List.filterMap_cons, List.filter_cons, hc,
        List.getElem?_eq_getElem hc, ih, List.getD_eq_getElem]
    · simp [List.filterMap_cons, List.filter_cons, hc,
        List.getElem?_eq_none (Nat.le_of_not_lt hc), ih]

/-- Claim C3: for every history, `medianFromHistory` agrees with
`medianSpec`, the word-for-word transcription of the spec's §4.4 policy
(result length is the length of the first entry; shorter entries drop out
of a column without error or padding; a non-empty column contributes the
lower-middle element, index `floor(size/2)`, of its sorted arrangement; an
empty column contributes `0.0`); in particular the history
`[[0,1],[1,0],[0.5,0.5]]` yields `[0.5,0.5]`. -/
theorem fer_c3_median_matches_spec :
    (∀ history : List (List ℚ), medianFromHistory history = medianSpec history) ∧
    medianFromHistory [[0, 1], [1, 0], [1/2, 1/2]] = [1/2, 1/2] := by
  constructor
  · intro history
    cases history with
    | nil => rfl
    | cons front rest =>
      unfold medianFromHistory medianSpec
      refine List.map_congr_left (fun c _ => ?_)
      simp only [column_eq (front :: rest) c, List.isEmpty_iff,
        List.length_eq_zero]
  · norm_num [medianFromHistory, List.filterMap_cons, List.insertionSort,
      List.orderedInsert, List.range_succ]
    exact ⟨List.cons_ne_nil _ _, List.cons_ne_nil _ _⟩

/-- Claim C4 counterexample: with a seeded (non-empty) EMA state `[1]` and
a strictly longer new distribution `[0, 0]`, the source loop runs `i` up to
the new distribution's length and accesses `ema_state[1]`, which is out of
bounds; the embedding reports this access as `none`, refuting the claim
that no index outside either sequence is accessed for every pair of
lengths. -/
theorem fer_c4_counterexample : applyEma (1/2) [0, 0] [1] = none := by decide

/-- Claim C4 (amended): on every call after seeding (EMA state non-empty),
provided the new distribution is no longer than the state, every index `i`
of the overlap is updated to `alpha * new[i] + (1 - alpha) * old[i]`, the
state's indices beyond the overlap retain their previous values, and no
out-of-bounds access occurs (the call succeeds). -/
theorem fer_c4_ema_blend (alpha : ℚ) (new_probs ema_state : List ℚ)
    (hne : ema_state ≠ []) (hlen : new_probs.length ≤ ema_state.length) :
    applyEma alpha new_probs ema_state
      = some (List.zipWith (emaStep alpha) new_probs ema_state
          ++ ema_state.drop new_probs.length) := by
  cases ema_state with
  | nil => exact absurd rfl hne
  | cons s ss => exact emaGo_eq alpha new_probs (s :: ss) hlen

/-- Claim C4 witness: the spec's example - alpha = 0.5, seeded state
`[1, 0]`, next observation `[0, 1]` - gives `[0.5, 0.5]`. -/
theorem fer_c4_witness : applyEma (1/2) [0, 1] [1, 0] = some [1/2, 1/2] := by
  have h := fer_c4_ema_blend (1/2) [0, 1] [1, 0] (by decide) (by decide)
  rw [h]
  norm_num [emaStep]

/-- Claim C5: on the very first call (EMA state empty) the state is seeded
with the observation, which is returned verbatim with no blending, for
every alpha; in particular seeding with `[0.1, 0.1, 0.1, 0.7]` yields
exactly `[0.1, 0.1, 0.1, 0.7]`. -/
theorem fer_c5_seed_identity :
    (∀ (alpha : ℚ) (new_probs : List ℚ),
      applyEma alpha new_probs [] = some new_probs) ∧
    applyEma (1/10) [1/10, 1/10, 1/10, 7/10] []
      = some [1/10, 1/10, 1/10, 7/10] :=
  ⟨fun _ _ => rfl, rfl⟩

lemma adjust_length (a : EmotionProbabilityAdjuster) (l : List ℚ) :
    (a.adjust l).length = l.length := by
  simp only [EmotionProbabilityAdjuster.adjust]
  by_cases h : a.neutralIndex < l.length
  · simp only [if_pos h]
    split <;> simp
  · simp only [if_neg h]
    split <;> simp

lemma processFrame_single :
    processFrame ⟨2, 3, 1/10, 3⟩ [1] ⟨[], []⟩ = some ([1], ⟨[1], [[1]]⟩) := by
  have hadj : (⟨2, 3⟩ : EmotionProbabilityAdjuster).adjust [1] = [1] := by
    norm_num [EmotionProbabilityAdjuster.adjust]
  simp [processFrame, hadj, applyEma, pushHistory, medianFromHistory,
    List.insertionSort, List.orderedInsert, List.range_succ,
    List.filterMap_cons]

/-- Claim C6: `medianFromHistory` on an empty history returns the empty
sentinel, and in every observation cycle that completes, the displayed
distribution is the median of the updated history when that median is
non-empty and is the freshly smoothed EMA value unchanged when the median
is empty. -/
theorem fer_c6_display_fallback :
    medianFromHistory [] = [] ∧
    ∀ (cfg : DriverConfig) (probabilities : List ℚ) (s : PipelineState)
      (d : List ℚ) (s2 : PipelineState),
      processFrame cfg probabilities s = some (d, s2) →
      d = (if (medianFromHistory s2.history).isEmpty then s2.ema_state
        else medianFromHistory s2.history) := by
  refine ⟨rfl, ?_⟩
  intro cfg probabilities s d s2 hpf
  simp only [processFrame] at hpf
  cases hema : applyEma cfg.ema_alpha
      ((⟨cfg.boostFactor, cfg.neutralIndex⟩ :
        EmotionProbabilityAdjuster).adjust probabilities) s.ema_state with
  | none => rw [hema] at hpf; cases hpf
  | some e =>
    rw [hema] at hpf
    simp only [Option.some.injEq, Prod.mk.injEq] at hpf
    obtain ⟨hd, hs⟩ := hpf
    subst hs
    exact hd.symm

/-- Claim C6 witness: a concrete completed cycle (config boost 2, neutral
index 3, alpha 0.1, capacity 3, raw input `[1]`, empty starting state)
displays the median of the updated one-entry history. -/
theorem fer_c6_witness :
    ([1] : List ℚ) = (if (medianFromHistory [[1]]).isEmpty then ([1] : List ℚ)
      else medianFromHistory [[1]]) :=
  fer_c6_display_fallback.2 ⟨2, 3, 1/10, 3⟩ [1] ⟨[], []⟩ [1] ⟨[1], [[1]]⟩
    processFrame_single

lemma getD_le_sum (l : List ℚ) (n : ℕ) (hnn : ∀ x ∈ l, 0 ≤ x) :
    l.getD n 0 ≤ l.sum := by
  induction l generalizing n with
  | nil => simp
  | cons x xs ih =>
    cases n with
    | zero =>
      simp only [List.getD_cons_zero, List.sum_cons]
      have h0 := List.sum_nonneg (fun y hy => hnn y (List.mem_cons_of_mem x hy))
      linarith
    | succ n =>
      simp only [List.getD_cons_succ, List.sum_cons]
      have hx := hnn x (List.mem_cons_self x xs)
      have hr := ih n (fun y hy => hnn y (List.mem_cons_of_mem x hy))
      linarith

lemma sum_map_div (l : List ℚ) (s : ℚ) :
    (l.map (fun p => p / s)).sum = l.sum / s := by
  induction l with
  | nil => simp
  | cons x xs ih => simp [ih, add_div]

lemma sum_split_at (l : List ℚ) (n : ℕ) (hn : n < l.length) :
    l.sum = (l.take n).sum + l.getD n 0 + (l.drop (n + 1)).sum := by
  conv_lhs => rw [← List.take_append_drop n l]
  rw [List.sum_append, List.drop_eq_getElem_cons hn, List.sum_cons,
    List.getD_eq_getElem l 0 hn]
  ring

/-- Claim C7: for every input distribution (non-negative values per the
data model) that is non-empty and has positive sum, and every positive
boost factor, the output of `adjust` sums to 1 within the 1e-5 tolerance
(in the exact-arithmetic embedding the sum is exactly 1). -/
theorem fer_c7_adjust_normalizes (a : EmotionProbabilityAdjuster)
    (l : List ℚ) (hbf : 0 < a.boostFactor) (hne : l ≠ [])
    (hnn : ∀ x ∈ l, 0 ≤ x) (hsum : 0 < l.sum) :
    |(a.adjust l).sum - 1| ≤ 1 / 100000 := by
  rw [adjust_eq_adjustSpec]
  simp only [adjustSpec]
  by_cases hni : a.neutralIndex < l.length
  · have hx0 : 0 ≤ l.getD a.neutralIndex 0 := by
      rw [List.getD_eq_getElem l 0 hni]
      exact hnn _ (List.getElem_mem hni)
    have hxle : l.getD a.neutralIndex 0 ≤ l.sum := getD_le_sum l a.neutralIndex hnn
    have hbsum : (l.set a.neutralIndex
        (a.boostFactor * l.getD a.neutralIndex 0)).sum
        = l.sum - l.getD a.neutralIndex 0
          + a.boostFactor * l.getD a.neutralIndex 0 := by
      rw [List.sum_set, if_pos hni, sum_split_at l a.neutralIndex hni]
      ring
    have hpos : 0 < (l.set a.neutralIndex
        (a.boostFactor * l.getD a.neutralIndex 0)).sum := by
      rw [hbsum]
      rcases eq_or_lt_of_le hx0 with h0 | h0
      · have hz : a.boostFactor * l.getD a.neutralIndex 0 = 0 := by
          rw [← h0, mul_zero]
        linarith
      · have hp := mul_pos hbf h0
        linarith
    rw [if_pos hni, if_pos hpos, sum_map_div, div_self hpos.ne']
    norm_num
  · rw [if_neg hni, if_pos hsum, sum_map_div, div_self hsum.ne']
    norm_num

/-- Claim C7 witness: boost factor 2, neutral index 3, input
`[1/4, 1/4, 1/4, 1/4]` (non-empty, non-negative, positive sum): the
adjusted output sums to 1 within 1e-5. -/
theorem fer_c7_witness :
    |((⟨2, 3⟩ : EmotionProbabilityAdjuster).adjust
      [1/4, 1/4, 1/4, 1/4]).sum - 1| ≤ 1 / 100000 :=
  fer_c7_adjust_normalizes ⟨2, 3⟩ [1/4, 1/4, 1/4, 1/4] (by norm_num)
    (by decide) (by norm_num) (by norm_num [List.sum_cons])

/-- Claim C9 counterexample: an `EmotionProbabilityAdjuster` constructed
with the negative boost factor `-1` is a fully usable instance - `adjust`
runs and produces a well-defined output - refuting the claim that an
invalid configuration value is never accepted into a usable instance
(the source constructor stores its arguments with no validation at all). -/
theorem fer_c9_counterexample :
    (⟨-1, 3⟩ : EmotionProbabilityAdjuster).adjust [1, 1, 1, 1]
      = [1/2, 1/2, 1/2, -(1/2)] := by
  norm_num [EmotionProbabilityAdjuster.adjust]

/-- Claim C9 (amended): no configuration value is validated anywhere:
the adjuster constructor accepts any boost factor (negative included) and
yields an instance whose `adjust` is total and shape-preserving, and the
driver runs with any alpha or capacity (the source hard-codes
`ema_alpha = 0.1f` and `maxHistory = 60` as plain constants) - e.g. a
pipeline with boost factor -1, alpha 5 (outside (0,1]) and capacity 0
processes a frame without any failure. -/
theorem fer_c9_no_validation :
    (∀ (bf : ℚ) (ni : ℕ) (l : List ℚ),
      ((⟨bf, ni⟩ : EmotionProbabilityAdjuster).adjust l).length = l.length) ∧
    processFrame ⟨-1, 3, 5, 0⟩ [1, 1] ⟨[], []⟩
      = some ([1/2, 1/2], ⟨[1/2, 1/2], []⟩) := by
  constructor
  · intro bf ni l
    exact adjust_length ⟨bf, ni⟩ l
  · have hadj : (⟨-1, 3⟩ : EmotionProbabilityAdjuster).adjust [1, 1]
        = [1/2, 1/2] := by
      norm_num [EmotionProbabilityAdjuster.adjust]
    simp [processFrame, hadj, applyEma, pushHistory, medianFromHistory]

lemma allNonEmpty_iff (h : List (List ℚ)) :
    allNonEmpty h = true ↔ ∀ e ∈ h, e ≠ [] := by
  simp [allNonEmpty, List.isEmpty_iff]

lemma applyEma_some_ne_nil (alpha : ℚ) (xs st r : List ℚ) (hxs : xs ≠ [])
    (h : applyEma alpha xs st = some r) : r ≠ [] := by
  unfold applyEma at h
  cases st with
  | nil =>
    simp only [Option.some.injEq] at h
    rw [← h]
    exact hxs
  | cons s ss =>
    have hl := emaGo_some_length alpha xs (s :: ss) r h
    intro hr
    rw [hr] at hl
    simp at hl

lemma medianFromHistory_cons_ne (front : List ℚ) (rest : List (List ℚ))
    (h : front ≠ []) : medianFromHistory (front :: rest) ≠ [] := by
  intro hmap
  have hl := congrArg List.length hmap
  simp only [medianFromHistory, List.length_map, List.length_range,
    List.length_nil] at hl
  exact h (List.length_eq_zero.mp hl)

lemma pushHistory_ne_nil (cap : ℕ) (h : List (List ℚ)) (x : List ℚ)
    (hcap : 0 < cap) : pushHistory cap h x ≠ [] := by
  unfold pushHistory
  by_cases hc : cap < (h ++ [x]).length
  · rw [if_pos hc]
    intro he
    have hl := congrArg List.length he
    rw [List.length_tail] at hl
    simp only [List.length_append, List.length_cons, List.length_nil,
      List.length_nil] at hl hc
    omega
  · rw [if_neg hc]
    simp

lemma mem_pushHistory (cap : ℕ) (h : List (List ℚ)) (x e : List ℚ)
    (he : e ∈ pushHistory cap h x) : e ∈ h ∨ e = x := by
  unfold pushHistory at he
  by_cases hc : cap < (h ++ [x]).length
  · rw [if_pos hc] at he
    rcases List.mem_append.mp (List.mem_of_mem_tail he) with h1 | h2
    · exact Or.inl h1
    · exact Or.inr (List.mem_singleton.mp h2)
  · rw [if_neg hc] at he
    rcases List.mem_append.mp he with h1 | h2
    · exact Or.inl h1
    · exact Or.inr (List.mem_singleton.mp h2)

/-- Claim C10: the driver guard skips the pipeline on an empty probability
vector (state untouched); a non-empty oldest entry makes the median
non-empty; and every processed cycle with non-empty raw input, positive
capacity and an all-non-empty history keeps every history entry non-empty,
yields a non-empty median, and displays exactly the median - the
empty-median fallback branch to the EMA value is never taken. -/
theorem fer_c10_fallback_unreachable :
    (∀ (cfg : DriverConfig) (s : PipelineState),
      loopBody cfg [] s = some (none, s)) ∧
    (∀ (front : List ℚ) (rest : List (List ℚ)), front ≠ [] →
      medianFromHistory (front :: rest) ≠ []) ∧
    (∀ (cfg : DriverConfig) (raw : List ℚ) (s : PipelineState)
      (d : List ℚ) (s2 : PipelineState),
      0 < cfg.maxHistory → raw ≠ [] → allNonEmpty s.history = true →
      processFrame cfg raw s = some (d, s2) →
      allNonEmpty s2.history = true ∧ medianFromHistory s2.history ≠ [] ∧
        d = medianFromHistory s2.history) := by
  refine ⟨fun cfg s => rfl, fun front rest h => medianFromHistory_cons_ne front rest h, ?_⟩
  intro cfg raw s d s2 hcap hraw hinv hpf
  simp only [processFrame] at hpf
  cases hema : applyEma cfg.ema_alpha
      ((⟨cfg.boostFactor, cfg.neutralIndex⟩ :
        EmotionProbabilityAdjuster).adjust raw) s.ema_state with
  | none => rw [hema] at hpf; cases hpf
  | some e =>
    rw [hema] at hpf
    simp only [Option.some.injEq, Prod.mk.injEq] at hpf
    obtain ⟨hd, hs⟩ := hpf
    subst hs
    have hadjne : (⟨cfg.boostFactor, cfg.neutralIndex⟩ :
        EmotionProbabilityAdjuster).adjust raw ≠ [] := by
      intro hh
      have hlen := adjust_length ⟨cfg.boostFactor, cfg.neutralIndex⟩ raw
      rw [hh] at hlen
      exact hraw (List.length_eq_zero.mp hlen.symm)
    have hene := applyEma_some_ne_nil _ _ _ _ hadjne hema
    have hinv2 : allNonEmpty (pushHistory cfg.maxHistory s.history e) = true := by
      rw [allNonEmpty_iff]
      intro a ha
      rcases mem_pushHistory _ _ _ _ ha with h1 | h2
      · exact (allNonEmpty_iff s.history).mp hinv a h1
      · rw [h2]; exact hene
    have hh2 : pushHistory cfg.maxHistory s.history e ≠ [] :=
      pushHistory_ne_nil _ _ _ hcap
    obtain ⟨front, rest, hfr⟩ :
        ∃ f r, pushHistory cfg.maxHistory s.history e = f :: r := by
      cases hpp : pushHistory cfg.maxHistory s.history e with
      | nil => exact absurd hpp hh2
      | cons f r => exact ⟨f, r, rfl⟩
    have hfront : front ≠ [] := by
      have hmem : front ∈ pushHistory cfg.maxHistory s.history e := by
        rw [hfr]; exact List.mem_cons_self _ _
      exact (allNonEmpty_iff _).mp hinv2 front hmem
    have hmne : medianFromHistory (pushHistory cfg.maxHistory s.history e) ≠ [] := by
      rw [hfr]
      exact medianFromHistory_cons_ne front rest hfront
    refine ⟨hinv2, hmne, ?_⟩
    rw [← hd, if_neg (by simpa [List.isEmpty_iff] using hmne)]

/-- Claim C10 witness: a concrete processed cycle (boost 2, neutral index
3, alpha 0.1, capacity 3, raw `[1]`, empty starting state) preserves the
all-non-empty history invariant, has a non-empty median, and displays
exactly the median. -/
theorem fer_c10_witness :
    allNonEmpty [[1]] = true ∧ medianFromHistory [[1]] ≠ [] ∧
      ([1] : List ℚ) = medianFromHistory [[1]] :=
  fer_c10_fallback_unreachable.2.2 ⟨2, 3, 1/10, 3⟩ [1] ⟨[], []⟩ [1]
    ⟨[1], [[1]]⟩ (by decide) (by decide) (by decide) processFrame_single

/-- Claim C8 counterexample: under the scenario's configuration (boost
factor 2.0, neutral index 3) the adjusted vector for raw input
`[0.25, 0.25, 0.25, 0.25]` is NOT the claimed `[1/7, 1/7, 1/7, 4/7]`
(boosting 0.25 by 2.0 gives 0.5, sum 1.25, so the normalized vector is
`[1/5, 1/5, 1/5, 2/5]`). -/
theorem fer_c8_counterexample :
    (⟨2, 3⟩ : EmotionProbabilityAdjuster).adjust [1/4, 1/4, 1/4, 1/4]
      ≠ [1/7, 1/7, 1/7, 4/7] := by
  norm_num [EmotionProbabilityAdjuster.adjust]

lemma processFrame_eval (cfg : DriverConfig) (raw v : List ℚ)
    (s : PipelineState)
    (hadj : (⟨cfg.boostFactor, cfg.neutralIndex⟩ :
      EmotionProbabilityAdjuster).adjust raw = v)
    (hema : applyEma cfg.ema_alpha v s.ema_state = some v)
    (hmed : medianFromHistory (pushHistory cfg.maxHistory s.history v) = v) :
    processFrame cfg raw s
      = some (v, ⟨v, pushHistory cfg.maxHistory s.history v⟩) := by
  simp only [processFrame, hadj, hema, hmed, ite_self]

/-- Claim C8 (amended): under configuration N=4, neutral index 3, boost
factor 2.0, alpha 0.1, capacity 3, feeding `[0.25,0.25,0.25,0.25]` three
times yields on each call the adjusted vector `[1/5,1/5,1/5,2/5]` (boost
then renormalize); the EMA seeds to that vector on the first call and
stays exactly equal to it thereafter (so it trivially converges to it);
after 3 pushes the history holds exactly 3 identical entries and the
median equals the EMA value exactly. -/
theorem fer_c8_endtoend :
    (⟨2, 3⟩ : EmotionProbabilityAdjuster).adjust [1/4, 1/4, 1/4, 1/4]
      = [1/5, 1/5, 1/5, 2/5] ∧
    processFrame ⟨2, 3, 1/10, 3⟩ [1/4, 1/4, 1/4, 1/4] ⟨[], []⟩
      = some ([1/5, 1/5, 1/5, 2/5],
          ⟨[1/5, 1/5, 1/5, 2/5], [[1/5, 1/5, 1/5, 2/5]]⟩) ∧
    processFrame ⟨2, 3, 1/10, 3⟩ [1/4, 1/4, 1/4, 1/4]
        ⟨[1/5, 1/5, 1/5, 2/5], [[1/5, 1/5, 1/5, 2/5]]⟩
      = some ([1/5, 1/5, 1/5, 2/5],
          ⟨[1/5, 1/5, 1/5, 2/5],
            [[1/5, 1/5, 1/5, 2/5], [1/5, 1/5, 1/5, 2/5]]⟩) ∧
    processFrame ⟨2, 3, 1/10, 3⟩ [1/4, 1/4, 1/4, 1/4]
        ⟨[1/5, 1/5, 1/5, 2/5],
          [[1/5, 1/5, 1/5, 2/5], [1/5, 1/5, 1/5, 2/5]]⟩
      = some ([1/5, 1/5, 1/5, 2/5],
          ⟨[1/5, 1/5, 1/5, 2/5],
            [[1/5, 1/5, 1/5, 2/5], [1/5, 1/5, 1/5, 2/5],
              [1/5, 1/5, 1/5, 2/5]]⟩) ∧
    medianFromHistory
        [[1/5, 1/5, 1/5, 2/5], [1/5, 1/5, 1/5, 2/5], [1/5, 1/5, 1/5, 2/5]]
      = [1/5, 1/5, 1/5, 2/5] := by
  have hadj : (⟨2, 3⟩ : EmotionProbabilityAdjuster).adjust [1/4, 1/4, 1/4, 1/4]
      = [1/5, 1/5, 1/5, 2/5] := by
    norm_num [EmotionProbabilityAdjuster.adjust]
  have hema : applyEma (1/10) [1/5, 1/5, 1/5, 2/5] [1/5, 1/5, 1/5, 2/5]
      = some [1/5, 1/5, 1/5, 2/5] := by
    norm_num [applyEma, emaGo, emaStep]
  have hmed1 : medianFromHistory [[1/5, 1/5, 1/5, 2/5]]
      = [1/5, 1/5, 1/5, 2/5] := by
    norm_num [medianFromHistory, List.filterMap_cons, List.insertionSort,
      List.orderedInsert, List.range_succ]
  have hmed2 : medianFromHistory
      [[1/5, 1/5, 1/5, 2/5], [1/5, 1/5, 1/5, 2/5]]
      = [1/5, 1/5, 1/5, 2/5] := by
    norm_num [medianFromHistory, List.filterMap_cons, List.insertionSort,
      List.orderedInsert, List.range_succ]
    exact ⟨List.cons_ne_nil _ _, List.cons_ne_nil _ _⟩
  have hmed3 : medianFromHistory
      [[1/5, 1/5, 1/5, 2/5], [1/5, 1/5, 1/5, 2/5], [1/5, 1/5, 1/5, 2/5]]
      = [1/5, 1/5, 1/5, 2/5] := by
    norm_num [medianFromHistory, List.filterMap_cons, List.insertionSort,
      List.orderedInsert, List.range_succ]
    exact ⟨List.cons_ne_nil _ _, List.cons_ne_nil _ _⟩
  have hpush1 : pushHistory 3 ([] : List (List ℚ)) [1/5, 1/5, 1/5, 2/5]
      = [[1/5, 1/5, 1/5, 2/5]] := by
    simp [pushHistory]
  have hpush2 : pushHistory 3 [[1/5, 1/5, 1/5, 2/5]] [1/5, 1/5, 1/5, 2/5]
      = [[1/5, 1/5, 1/5, 2/5], [1/5, 1/5, 1/5, 2/5]] := by
    simp [pushHistory]
  have hpush3 : pushHistory 3 [[1/5, 1/5, 1/5, 2/5], [1/5, 1/5, 1/5, 2/5]]
      [1/5, 1/5, 1/5, 2/5]
      = [[1/5, 1/5, 1/5, 2/5], [1/5, 1/5, 1/5, 2/5], [1/5, 1/5, 1/5, 2/5]] := by
    simp [pushHistory]
  refine ⟨hadj, ?_, ?_, ?_, hmed3⟩
  · have h1 := processFrame_eval ⟨2, 3, 1/10, 3⟩ [1/4, 1/4, 1/4, 1/4]
      [1/5, 1/5, 1/5, 2/5] ⟨[], []⟩ hadj rfl (by rw [hpush1]; exact hmed1)
    rw [hpush1] at h1
    exact h1
  · have h2 := processFrame_eval ⟨2, 3, 1/10, 3⟩ [1/4, 1/4, 1/4, 1/4]
      [1/5, 1/5, 1/5, 2/5] ⟨[1/5, 1/5, 1/5, 2/5], [[1/5, 1/5, 1/5, 2/5]]⟩
      hadj hema (by rw [hpush2]; exact hmed2)
    rw [hpush2] at h2
    exact h2
  · have h3 := processFrame_eval ⟨2, 3, 1/10, 3⟩ [1/4, 1/4, 1/4, 1/4]
      [1/5, 1/5, 1/5, 2/5]
      ⟨[1/5, 1/5, 1/5, 2/5], [[1/5, 1/5, 1/5, 2/5], [1/5, 1/5, 1/5, 2/5]]⟩
      hadj hema (by rw [hpush3]; exact hmed3)
    rw [hpush3] at h3
    exact h3
